import Mathlib

/-!
Shallow embedding of the Electrum lightweight Bitcoin wallet client
(`src/client/electrum.py`) and its SPV verifier (`src/lib/verifier.py`).

Byte strings are modelled as `List Nat` (one `Nat` per byte, values < 256 in
practice).  The external cryptographic libraries used by the source
(`hashlib`, `python-ecdsa`, `slowaes`) are not part of the repository; they
are modelled as an abstract parameter structure `Prim` (hash functions, the
secp256k1 group) and, for the password routines, as plain function
parameters.  Everything written in the repository itself (base58, the
address-derivation pipeline, wallet operations, coin selection, the Merkle
fold) is translated directly from the source.
-/

namespace Electrum

/-- The base58 alphabet of `electrum.py` (`__b58chars`,
"123456789ABCDEFGHJKLMNPQRSTUVWXYZabcdefghijkmnopqrstuvwxyz"), as ASCII
codes. -/
def b58chars : List Nat :=
  [49, 50, 51, 52, 53, 54, 55, 56, 57,
   65, 66, 67, 68, 69, 70, 71, 72, 74, 75, 76, 77, 78,
   80, 81, 82, 83, 84, 85, 86, 87, 88, 89, 90,
   97, 98, 99, 100, 101, 102, 103, 104, 105, 106, 107,
   109, 110, 111, 112, 113, 114, 115, 116, 117, 118, 119, 120, 121, 122]

/-- Big-endian digits of `v` in base `base` (most significant first), the
digit sequence produced by the `while long_value >= base: divmod` loop of
`b58encode`.  `fuel` bounds the recursion depth; callers pass a bound that
provably suffices (the loop of the source always terminates because the
value shrinks by a factor of the base at every step). -/
def natDigits (base : Nat) : Nat → Nat → List Nat
  | 0, v => [v]
  | fuel + 1, v => if v < base then [v] else natDigits base fuel (v / base) ++ [v % base]

/-- Big-endian byte-string-to-integer conversion (`string_to_number` of
python-ecdsa, also the accumulation loop at the top of `b58encode`). -/
def stringToNumber (v : List Nat) : Nat :=
  v.foldl (fun a c => 256 * a + c) 0

/-- `b58encode` of `electrum.py`: base-58 digits of the big-endian value of
the byte string, leading `0x00` bytes becoming leading `'1'` characters.
Since `58^2 > 256`, `2·len + 2` recursion steps always suffice for the digit
loop. -/
def b58encode (v : List Nat) : List Nat :=
  let value := stringToNumber v
  let digits := natDigits 58 (2 * v.length + 2) value
  let nPad := (v.takeWhile (fun c => c == 0)).length
  List.replicate nPad 49 ++ digits.map (fun d => b58chars.getD d 49)

/-- External primitives used by the wallet.  `sha256` and `ripemd160` stand
for `hashlib.sha256` / `hashlib.new('ripemd160')`; the group fields stand
for python-ecdsa points on secp256k1: `padd` is point addition, `pmulRaw`
is scalar multiplication of an already-reduced scalar, `G` the generator,
`fromBytes`/`toBytes` are `VerifyingKey.from_string` / `to_string` (the raw
64-byte public-key serialization). -/
structure Prim where
  sha256 : List Nat → List Nat
  ripemd160 : List Nat → List Nat
  P : Type
  padd : P → P → P
  pmulRaw : Nat → P → P
  G : P
  fromBytes : List Nat → P
  toBytes : P → List Nat

/-- The secp256k1 group order `_r` of `electrum.py`. -/
def secpOrder : Nat :=
  0xFFFFFFFFFFFFFFFFFFFFFFFFFFFFFFFEBAAEDCE6AF48A03BBFD25E8CD0364141

/-- Modelled from the spec: scalar point multiplication as performed by
python-ecdsa (`z*curve.generator` in `create_new_address2`).  The library's
`Point.__mul__` first reduces the scalar modulo the order attached to the
point, so the offset is "interpreted as a big-endian scalar modulo the
curve order" (spec §3). -/
def pmul (prim : Prim) (z : Nat) (p : prim.P) : prim.P :=
  prim.pmulRaw (z % secpOrder) p

/-- `Hash` of `electrum.py`: double SHA-256. -/
def doubleSHA (prim : Prim) (data : List Nat) : List Nat :=
  prim.sha256 (prim.sha256 data)

/-- `hash_160`: RIPEMD-160 of SHA-256. -/
def hash160 (prim : Prim) (publicKey : List Nat) : List Nat :=
  prim.ripemd160 (prim.sha256 publicKey)

/-- `EncodeBase58Check`: append the first four bytes of the double SHA-256
as a checksum, then base58. -/
def encodeBase58Check (prim : Prim) (vchIn : List Nat) : List Nat :=
  b58encode (vchIn ++ (doubleSHA prim vchIn).take 4)

/-- `hash_160_to_bc_address` with `addrtype = 0`: prepend the version byte
`0x00`, append the 4-byte checksum, base58-encode. -/
def hash160ToBcAddress (prim : Prim) (h160 : List Nat) : List Nat :=
  let vh160 := 0 :: h160
  let h := doubleSHA prim vh160
  b58encode (vh160 ++ h.take 4)

/-- `public_key_to_bc_address`. -/
def publicKeyToBcAddress (prim : Prim) (publicKey : List Nat) : List Nat :=
  hash160ToBcAddress prim (hash160 prim publicKey)

/-- `hash_160_to_bc_address` is exactly Base58Check of `0x00 || h160`,
i.e. the composition the spec calls `base58check(0x00 || ...)`. -/
theorem hash160ToBcAddress_eq_base58check (prim : Prim) (h160 : List Nat) :
    hash160ToBcAddress prim h160 = encodeBase58Check prim (0 :: h160) := rfl

/-- ASCII decimal rendering of a natural number (`"%d"` in Python). -/
def decimalAscii (n : Nat) : List Nat :=
  (natDigits 10 (n + 1) n).map (fun d => d + 48)

/-- A history entry as delivered by the server (`get_txpoints` in
`src/server/server.py`) and consumed by the wallet.  `raw_scriptPubKey`
is the empty string when the field is absent or empty (both are falsy at
the `item.get('raw_scriptPubKey')` check). -/
structure HItem where
  value : Int
  height : Nat
  nTime : Nat
  is_in : Bool
  tx_hash : String
  pos : Nat
  blk_hash : String
  raw_scriptPubKey : String
  deriving DecidableEq, Repr

/-- The wallet state: the fields of class `Wallet` that the verified
operations read or write.  Addresses are the base58 byte strings produced
by `create_new_address2`; `history` and `status` are the dictionaries
`self.history` / `self.status` (modelled as association lists where the
most recent binding shadows earlier ones, matching dict assignment). -/
structure Wallet where
  gap_limit : Nat
  fee : Nat
  mpk : List Nat
  addresses : List (List Nat)
  change_addresses : List (List Nat)
  history : List (List Nat × List HItem)
  status : List (List Nat × Option String)
  deriving DecidableEq

/-- `Wallet.all_addresses`. -/
def allAddresses (w : Wallet) : List (List Nat) :=
  w.addresses ++ w.change_addresses

/-- `self.history.get(addr)` (`None` when absent). -/
def historyGet (w : Wallet) (addr : List Nat) : Option (List HItem) :=
  List.lookup addr w.history

/-- Python truthiness of an optional history list: `None` and `[]` are
falsy. -/
def truthyHist : Option (List HItem) → Bool
  | some (_ :: _) => true
  | _ => false

/-- Dictionary assignment `self.history[addr] = h`. -/
def historySet (w : Wallet) (addr : List Nat) (h : List HItem) : Wallet :=
  { w with history := (addr, h) :: w.history }

/-- `Wallet.get_sequence`: the big-endian integer value of the double
SHA-256 of the ASCII string `"%d:%d:"%(n,for_change)` followed by the raw
master public key bytes. -/
def getSequence (prim : Prim) (mpk : List Nat) (n : Nat) (forChange : Bool) : Nat :=
  stringToNumber (doubleSHA prim
    (decimalAscii n ++ [58] ++ [if forChange then 49 else 48] ++ [58] ++ mpk))

/-- The address derived for index `n` of the receiving (`forChange = false`)
or change (`forChange = true`) sequence: the body of
`create_new_address2`, `Publickey(type,n) = Master_public_key + H(n|S|type)*point`,
hashed and base58-encoded with the `0x04` uncompressed-point prefix. -/
def deriveAddress (prim : Prim) (mpk : List Nat) (n : Nat) (forChange : Bool) : List Nat :=
  let z := getSequence prim mpk n forChange
  let pubkeyPoint := prim.padd (prim.fromBytes mpk) (pmul prim z prim.G)
  publicKeyToBcAddress prim (4 :: prim.toBytes pubkeyPoint)

/-- `Wallet.create_new_address2`: derive the next address of the selected
sequence, append it, fetch and record its history
(`self.history[address] = self.retrieve_history(address)`) and its status
(the last entry's `blk_hash`, or `None`).  The network is the oracle
`net` answering `retrieve_history`.  Returns the new address and the
updated wallet. -/
def createNewAddress2 (prim : Prim) (net : List Nat → List HItem) (w : Wallet)
    (forChange : Bool) : List Nat × Wallet :=
  let n := if forChange then w.change_addresses.length else w.addresses.length
  let address := deriveAddress prim w.mpk n forChange
  let h := net address
  let w1 :=
    if forChange then { w with change_addresses := w.change_addresses ++ [address] }
    else { w with addresses := w.addresses ++ [address] }
  let w2 := historySet w1 address h
  let w3 := { w2 with status := (address, (h.getLast?).map (fun it => it.blk_hash)) :: w2.status }
  (address, w3)

/-- `self.addresses[-self.gap_limit:]`: the last `gap_limit` receiving
addresses (all of them when there are fewer). -/
def lastReceiving (w : Wallet) : List (List Nat) :=
  w.addresses.drop (w.addresses.length - w.gap_limit)

/-- `Wallet.get_new_address`: count the never-used addresses among the last
`gap_limit` receiving addresses; if fewer than `gap_limit`, derive a fresh
receiving address and give it an empty history, otherwise report that the
gap limit is reached (`(False, message)` in the source, `none` here). -/
def getNewAddress (prim : Prim) (net : List Nat → List HItem) (w : Wallet) :
    Option (List Nat) × Wallet :=
  let n := (lastReceiving w).countP (fun a => !truthyHist (historyGet w a))
  if n < w.gap_limit then
    let r := createNewAddress2 prim net w false
    (some r.1, historySet r.2 r.1 [])
  else
    (none, w)

/-- First loop of `Wallet.synchronize`: create change addresses while the
list is empty or the last change address has (non-empty) history; break as
soon as the last change address is unused.  `fuel` bounds the number of
iterations: the source loop does not terminate if the oracle keeps
reporting history for fresh addresses, so the Boolean records whether the
`break` was reached within `fuel` steps. -/
def syncChange (prim : Prim) (net : List Nat → List HItem) :
    Nat → Wallet → Bool × Wallet
  | 0, w => (false, w)
  | fuel + 1, w =>
    match w.change_addresses.getLast? with
    | none => syncChange prim net fuel (createNewAddress2 prim net w true).2
    | some a =>
      if truthyHist (historyGet w a) then
        syncChange prim net fuel (createNewAddress2 prim net w true).2
      else (true, w)

/-- The break test of the second `synchronize` loop:
`map(lambda a: self.history.get(a), self.addresses[-n:]) == n*[[]]` — each
of the last `gap_limit` receiving addresses must have history exactly `[]`
(a missing entry, i.e. `None`, does not match). -/
def lastReceivingEmpty (w : Wallet) : Bool :=
  decide ((lastReceiving w).map (historyGet w) = List.replicate w.gap_limit (some []))

/-- Second loop of `Wallet.synchronize`: keep creating receiving addresses
until there are at least `gap_limit` of them and the last `gap_limit` all
have empty history. -/
def syncRecv (prim : Prim) (net : List Nat → List HItem) :
    Nat → Wallet → Bool × Wallet
  | 0, w => (false, w)
  | fuel + 1, w =>
    if w.addresses.length < w.gap_limit then
      syncRecv prim net fuel (createNewAddress2 prim net w false).2
    else if lastReceivingEmpty w then (true, w)
    else syncRecv prim net fuel (createNewAddress2 prim net w false).2

/-- The two address-creation loops of `Wallet.synchronize` (lines 353-376).
The remainder of `synchronize` (the `is_found` test, `update_tx_history`,
the addressbook scan and `update_tx_labels`) reads but never modifies the
address lists or the per-address history, so it is elided here.  The
Boolean is `true` when both loops reached their `break` within `fuel`
iterations, i.e. when `synchronize` actually returns. -/
def synchronizeLoops (prim : Prim) (net : List Nat → List HItem) (fuel : Nat)
    (w : Wallet) : Bool × Wallet :=
  let r1 := syncChange prim net fuel w
  if r1.1 then syncRecv prim net fuel r1.2
  else (false, r1.2)

/-- `Wallet.get_addr_balance`: `(0, 0)` for a falsy history, otherwise the
signed sums of entry values, confirmed (`height` nonzero) and unconfirmed
(`height` zero) separately. -/
def getAddrBalance (w : Wallet) (addr : List Nat) : Int × Int :=
  if truthyHist (historyGet w addr) then
    ((historyGet w addr).getD []).foldl
      (fun cu it => if it.height ≠ 0 then (cu.1 + it.value, cu.2) else (cu.1, cu.2 + it.value))
      (0, 0)
  else (0, 0)

/-- `Wallet.get_balance`: accumulate `get_addr_balance` over
`self.addresses` (the receiving list). -/
def getBalance (w : Wallet) : Int × Int :=
  w.addresses.foldl
    (fun acc a =>
      let cu := getAddrBalance w a
      (acc.1 + cu.1, acc.2 + cu.2))
    (0, 0)

/-- An element of the `inputs` list built by `choose_tx_inputs`:
`(addr, value, tx_hash, pos, raw_scriptPubKey, None, None)` (the two
`None`s are the pubkey and signature filled in later by `sign_inputs`). -/
structure TxInput where
  addr : List Nat
  value : Int
  tx_hash : String
  pos : Nat
  script : String
  deriving DecidableEq, Repr

/-- The coin candidates of `choose_tx_inputs`: for every owned address with
a present history, every entry whose `raw_scriptPubKey` is truthy. -/
def walletCoins (w : Wallet) : List (List Nat × HItem) :=
  (allAddresses w).flatMap fun a =>
    match historyGet w a with
    | none => []
    | some h => (h.filter (fun it => it.raw_scriptPubKey ≠ "")).map (fun it => (a, it))

/-- Stable insertion of a coin into a list sorted by ascending `nTime`
(equal keys keep their original order, as Python's stable `sorted` does). -/
def insertByNTime (c : List Nat × HItem) : List (List Nat × HItem) → List (List Nat × HItem)
  | [] => [c]
  | d :: ds => if d.2.nTime ≤ c.2.nTime then d :: insertByNTime c ds else c :: d :: ds

/-- `sorted(coins, key = lambda x: x[1]['nTime'])`: a stable sort by
ascending `nTime` (insertion sort; Python's sort is also stable, and no
verified property depends on the algorithm beyond order and stability). -/
def sortCoins (coins : List (List Nat × HItem)) : List (List Nat × HItem) :=
  coins.foldl (fun acc c => insertByNTime c acc) []

/-- The tuple `(addr, v, item['tx_hash'], item['pos'],
item['raw_scriptPubKey'], None, None)` appended to `inputs` for a selected
coin. -/
def mkInput (c : List Nat × HItem) : TxInput :=
  ⟨c.1, c.2.value, c.2.tx_hash, c.2.pos, c.2.raw_scriptPubKey⟩

/-- `fee = self.fee*len(inputs) if fixed_fee is None else fixed_fee`,
recomputed after each append with `n = len(inputs)`. -/
def nextFee (feeBase : Nat) (fixedFee : Option Nat) (n : Nat) : Nat :=
  match fixedFee with
  | none => feeBase * n
  | some f => f

/-- The selection loop of `choose_tx_inputs`: append coins in order,
accumulating `total` and recomputing the fee, and stop (`break`) as soon
as `total >= amount + fee`; if the coins run out first, the `for ... else`
branch clears `inputs` (keeping the accumulated `total` and `fee`). -/
def selectLoop (feeBase : Nat) (fixedFee : Option Nat) (amount : Int) :
    List TxInput → Int → Nat → List (List Nat × HItem) →
    List TxInput × Int × Nat
  | _, total, fee, [] => ([], total, fee)
  | acc, total, _fee, c :: rest =>
    let total1 := total + c.2.value
    let acc1 := acc ++ [mkInput c]
    let fee1 := nextFee feeBase fixedFee acc1.length
    if amount + (fee1 : Int) ≤ total1 then (acc1, total1, fee1)
    else selectLoop feeBase fixedFee amount acc1 total1 fee1 rest

/-- `Wallet.choose_tx_inputs`. -/
def chooseTxInputs (w : Wallet) (amount : Int) (fixedFee : Option Nat) :
    List TxInput × Int × Nat :=
  selectLoop w.fee fixedFee amount [] 0 (fixedFee.getD w.fee) (sortCoins (walletCoins w))

/-- `Wallet.choose_tx_outputs`: the recipient output first; when
`total - (amount + fee)` is nonzero, a change output for that difference,
sent to the first change address with falsy history, or to a freshly
derived change address when every existing one has been used.  Returns the
outputs and the (possibly extended) wallet. -/
def chooseTxOutputs (prim : Prim) (net : List Nat → List HItem) (w : Wallet)
    (toAddr : List Nat) (amount : Int) (fee : Nat) (total : Int) :
    List (List Nat × Int) × Wallet :=
  let change := total - (amount + (fee : Int))
  if change ≠ 0 then
    match w.change_addresses.find? (fun a => !truthyHist (historyGet w a)) with
    | some ca => ([(toAddr, amount), (ca, change)], w)
    | none =>
      let r := createNewAddress2 prim net w true
      ([(toAddr, amount), (r.1, change)], r.2)
  else ([(toAddr, amount)], w)

/-- The value-level skeleton of `Wallet.mktx`: input selection, the
not-enough-funds failure, and output construction.  The address-validity
check, the signing step and the final serialization are elided: they can
only turn a success into a failure and do not alter any input or output
value (`sign_inputs` copies `(addr, v, tx_hash, pos, script)` verbatim). -/
def mktxValues (prim : Prim) (net : List Nat → List HItem) (w : Wallet)
    (toAddr : List Nat) (amount : Int) (fixedFee : Option Nat) :
    Option (List TxInput × List (List Nat × Int) × Nat) :=
  let r := chooseTxInputs w amount fixedFee
  if r.1 = [] then none
  else some (r.1, (chooseTxOutputs prim net w toAddr amount r.2.2 r.2.1).1, r.2.2)

/-- Python2 `str.decode('hex')` succeeds exactly on even-length strings of
hexadecimal digits (either case). -/
def hexDecodable (s : String) : Bool :=
  s.length % 2 = 0 &&
    s.data.all fun c =>
      (('0' ≤ c && c ≤ '9') || ('a' ≤ c && c ≤ 'f') || ('A' ≤ c && c ≤ 'F'))

/-- `Wallet.pw_encode`: with a truthy password, AES-encrypt under the
double-SHA-256 of the password (`hashS`/`encAES` stand for the external
`Hash` and `EncodeAES`); with `None` or the empty password, return the
string unchanged. -/
def pwEncode (hashS : String → String) (encAES : String → String → String)
    (s : String) (password : Option String) : String :=
  match password with
  | none => s
  | some p => if p = "" then s else encAES (hashS p) s

/-- `Wallet.pw_decode`: with a truthy password, AES-decrypt and validate
the plaintext with `d.decode('hex')`, raising `InvalidPassword` (modelled
as `none`) when the plaintext is not even-length hex; with `None` or the
empty password, return the stored string unchanged. -/
def pwDecode (hashS : String → String) (decAES : String → String → String)
    (s : String) (password : Option String) : Option String :=
  match password with
  | none => some s
  | some p =>
    if p = "" then some s
    else
      let d := decAES (hashS p) s
      if hexDecodable d then some d else none

/-- Modelled from the spec: the plaintext-format predicate the spec claims
`pw_decode` enforces — "the plaintext must be lowercase hex of the
expected length" (§4.1); the expected seed length is 32 hex characters
(§3, `InvalidSeed`). -/
def specLowercaseHex (len : Nat) (s : String) : Bool :=
  s.length = len && s.data.all fun c => ('0' ≤ c && c ≤ '9') || ('a' ≤ c && c ≤ 'f')

/-- A stored block header as used by `verify_merkle`
(`self.network.get_header(tx_height)`); only the fields the verifier
reads. -/
structure BlockHeader where
  merkle_root : List Nat
  timestamp : Nat
  deriving DecidableEq, Repr

/-- `SPV.hash_merkle_root` (`src/lib/verifier.py`), at the byte level: fold
the decoded txid through the branch, hashing `sibling || acc` when bit `i`
of `pos` is set and `acc || sibling` otherwise.  Modelled from the spec for
the byte-order helpers: `hash_decode`/`hash_encode` come from the missing
`bitcoin.py` module and are inverse reversals, so the fold is stated
directly on byte strings as in the spec's §4.6 pseudocode, with `hash256`
(double SHA-256 of `bitcoin.py`) an abstract parameter. -/
def hashMerkleRoot (hash256 : List Nat → List Nat) (merkle : List (List Nat))
    (targetHash : List Nat) (pos : Nat) : List Nat :=
  let rec go : Nat → List Nat → List (List Nat) → List Nat
    | _, h, [] => h
    | i, h, item :: rest =>
      go (i + 1)
        (if (pos >>> i) % 2 = 1 then hash256 (item ++ h) else hash256 (h ++ item)) rest
  go 0 targetHash merkle

/-- `SPV.verify_merkle`: recompute the root from the branch; if no header
is stored at the reported height, do nothing; if the stored header's
`merkle_root` differs, log and do nothing; otherwise record the verified
stamp `(tx_height, header timestamp, pos)`
(`self.wallet.add_verified_tx(tx_hash, (tx_height, header.get('timestamp'), pos))`).
The returned `Option` is the stamp recorded, `none` meaning no stamp. -/
def verifyMerkle (hash256 : List Nat → List Nat) (getHeader : Nat → Option BlockHeader)
    (txid : List Nat) (merkle : List (List Nat)) (pos : Nat) (height : Nat) :
    Option (Nat × Nat × Nat) :=
  let root := hashMerkleRoot hash256 merkle txid pos
  match getHeader height with
  | none => none
  | some header =>
    if header.merkle_root ≠ root then none
    else some (height, header.timestamp, pos)

/-- The wallet operations that create or touch addresses and history:
`create_new_address2` (directly, or via the CLI `create` path),
`get_new_address`, the `synchronize` loops, a history refresh as performed
by `update()` (`self.history[addr] = self.retrieve_history(addr)`), and
the `mktx` path (input selection followed by output construction, which
may derive a change address). -/
inductive WOp where
  | newAddr (forChange : Bool)
  | getNew
  | sync (fuel : Nat)
  | setHist (a : List Nat) (h : List HItem)
  | spend (toAddr : List Nat) (amount : Int) (fixedFee : Option Nat)

/-- Apply one wallet operation. -/
def applyOp (prim : Prim) (net : List Nat → List HItem) (w : Wallet) : WOp → Wallet
  | .newAddr fc => (createNewAddress2 prim net w fc).2
  | .getNew => (getNewAddress prim net w).2
  | .sync fuel => (synchronizeLoops prim net fuel w).2
  | .setHist a h => historySet w a h
  | .spend toAddr amount fixedFee =>
    let r := chooseTxInputs w amount fixedFee
    if r.1 = [] then w
    else (chooseTxOutputs prim net w toAddr amount r.2.2 r.2.1).2

/-- Run a sequence of wallet operations. -/
def runOps (prim : Prim) (net : List Nat → List HItem) (ops : List WOp)
    (w : Wallet) : Wallet :=
  ops.foldl (applyOp prim net) w

/-- A wallet as `Wallet.__init__` leaves it once the master public key is
set (`init_mpk`): default gap limit 5 and fee 50000, empty address lists
and dictionaries. -/
def initWallet (mpk : List Nat) : Wallet :=
  { gap_limit := 5, fee := 50000, mpk := mpk, addresses := [],
    change_addresses := [], history := [], status := [] }

/-- The derivation invariant: the master public key is `mpk` and both
address lists are dense prefixes of their derivation sequences. -/
def goodAddrs (prim : Prim) (mpk : List Nat) (w : Wallet) : Prop :=
  w.mpk = mpk ∧
  (∀ i (h : i < w.addresses.length), w.addresses[i] = deriveAddress prim mpk i false) ∧
  (∀ i (h : i < w.change_addresses.length),
    w.change_addresses[i] = deriveAddress prim mpk i true)

theorem goodAddrs_append (l : List (List Nat)) (f : Nat → List Nat)
    (hl : ∀ i (h : i < l.length), l[i] = f i) :
    ∀ i (h : i < (l ++ [f l.length]).length), (l ++ [f l.length])[i] = f i := by
  intro i h
  by_cases hi : i < l.length
  · rw [List.getElem_append_left hi]
    exact hl i hi
  · have hlen : i = l.length := by
      simp only [List.length_append, List.length_singleton] at h
      omega
    subst hlen
    rw [List.getElem_append_right (le_of_not_lt hi)]
    simp

theorem goodAddrs_createNewAddress2 (prim : Prim) (net : List Nat → List HItem)
    (mpk : List Nat) (w : Wallet) (fc : Bool) (hg : goodAddrs prim mpk w) :
    goodAddrs prim mpk (createNewAddress2 prim net w fc).2 := by
  obtain ⟨hm, hr, hc⟩ := hg
  subst hm
  cases fc
  · exact ⟨rfl, goodAddrs_append w.addresses (fun i => deriveAddress prim w.mpk i false) hr, hc⟩
  · exact ⟨rfl, hr, goodAddrs_append w.change_addresses
      (fun i => deriveAddress prim w.mpk i true) hc⟩

theorem goodAddrs_historySet (prim : Prim) (mpk : List Nat) (w : Wallet)
    (a : List Nat) (h : List HItem) (hg : goodAddrs prim mpk w) :
    goodAddrs prim mpk (historySet w a h) := hg

theorem goodAddrs_getNewAddress (prim : Prim) (net : List Nat → List HItem)
    (mpk : List Nat) (w : Wallet) (hg : goodAddrs prim mpk w) :
    goodAddrs prim mpk (getNewAddress prim net w).2 := by
  have h1 := goodAddrs_createNewAddress2 prim net mpk w false hg
  simp only [getNewAddress]
  split
  · exact goodAddrs_historySet prim mpk _ _ _ h1
  · exact hg

theorem goodAddrs_syncChange (prim : Prim) (net : List Nat → List HItem)
    (mpk : List Nat) (fuel : Nat) :
    ∀ w : Wallet, goodAddrs prim mpk w →
      goodAddrs prim mpk (syncChange prim net fuel w).2 := by
  induction fuel with
  | zero => intro w hg; exact hg
  | succ f ih =>
    intro w hg
    unfold syncChange
    cases hlast : w.change_addresses.getLast? with
    | none => exact ih _ (goodAddrs_createNewAddress2 prim net mpk w true hg)
    | some a =>
      dsimp only
      split
      · exact ih _ (goodAddrs_createNewAddress2 prim net mpk w true hg)
      · exact hg

theorem goodAddrs_syncRecv (prim : Prim) (net : List Nat → List HItem)
    (mpk : List Nat) (fuel : Nat) :
    ∀ w : Wallet, goodAddrs prim mpk w →
      goodAddrs prim mpk (syncRecv prim net fuel w).2 := by
  induction fuel with
  | zero => intro w hg; exact hg
  | succ f ih =>
    intro w hg
    unfold syncRecv
    split
    · exact ih _ (goodAddrs_createNewAddress2 prim net mpk w false hg)
    · split
      · exact hg
      · exact ih _ (goodAddrs_createNewAddress2 prim net mpk w false hg)

theorem goodAddrs_synchronizeLoops (prim : Prim) (net : List Nat → List HItem)
    (mpk : List Nat) (fuel : Nat) (w : Wallet) (hg : goodAddrs prim mpk w) :
    goodAddrs prim mpk (synchronizeLoops prim net fuel w).2 := by
  simp only [synchronizeLoops]
  split
  · exact goodAddrs_syncRecv prim net mpk fuel _
      (goodAddrs_syncChange prim net mpk fuel w hg)
  · exact goodAddrs_syncChange prim net mpk fuel w hg

theorem goodAddrs_chooseTxOutputs (prim : Prim) (net : List Nat → List HItem)
    (mpk : List Nat) (w : Wallet) (toAddr : List Nat) (amount : Int)
    (fee : Nat) (total : Int) (hg : goodAddrs prim mpk w) :
    goodAddrs prim mpk (chooseTxOutputs prim net w toAddr amount fee total).2 := by
  unfold chooseTxOutputs
  dsimp only
  split
  · split
    · exact hg
    · exact goodAddrs_createNewAddress2 prim net mpk w true hg
  · exact hg

theorem goodAddrs_applyOp (prim : Prim) (net : List Nat → List HItem)
    (mpk : List Nat) (w : Wallet) (op : WOp) (hg : goodAddrs prim mpk w) :
    goodAddrs prim mpk (applyOp prim net w op) := by
  cases op with
  | newAddr fc => exact goodAddrs_createNewAddress2 prim net mpk w fc hg
  | getNew => exact goodAddrs_getNewAddress prim net mpk w hg
  | sync fuel => exact goodAddrs_synchronizeLoops prim net mpk fuel w hg
  | setHist a h => exact goodAddrs_historySet prim mpk w a h hg
  | spend toAddr amount fixedFee =>
    unfold applyOp
    dsimp only
    split
    · exact hg
    · exact goodAddrs_chooseTxOutputs prim net mpk w toAddr amount _ _ hg

theorem goodAddrs_runOps (prim : Prim) (net : List Nat → List HItem)
    (mpk : List Nat) (ops : List WOp) :
    ∀ w : Wallet, goodAddrs prim mpk w →
      goodAddrs prim mpk (runOps prim net ops w) := by
  induction ops with
  | nil => intro w hg; exact hg
  | cons op rest ih =>
    intro w hg
    exact ih _ (goodAddrs_applyOp prim net mpk w op hg)

theorem goodAddrs_initWallet (prim : Prim) (mpk : List Nat) :
    goodAddrs prim mpk (initWallet mpk) := by
  refine ⟨rfl, ?_, ?_⟩ <;> intro i h <;> simp [initWallet] at h

/-- A small concrete instantiation of the external primitives, used to
evaluate the wallet operations on explicit inputs: both hash functions are
the identity and the group is `(ℕ, +)` with scalar multiplication as
multiplication. -/
def natPrim : Prim where
  sha256 := fun l => l
  ripemd160 := fun l => l
  P := Nat
  padd := fun p q => p + q
  pmulRaw := fun z p => z * p
  G := 1
  fromBytes := stringToNumber
  toBytes := fun p => natDigits 256 64 p

/-- The all-empty network oracle: every address has empty history. -/
def emptyNet : List Nat → List HItem := fun _ => []

/-- C1: For every wallet and every address in its receiving or change
list, the stored encoded address equals
`base58check(0x00 || hash160(0x04 || child_pub))`, where
`child_pub = MPK + offset·G` and `offset` is the double-SHA-256 of the
ASCII string `"n:for_change_flag:"` followed by the raw MPK bytes,
interpreted as a big-endian scalar modulo the curve order (`n` being the
address's index in its list).  Wallets are those reachable from a
freshly initialized store by the address-creating operations of the
client. -/
theorem addresses_follow_derivation (prim : Prim) (net : List Nat → List HItem)
    (mpk : List Nat) (ops : List WOp) (n : Nat) :
    (∀ h : n < (runOps prim net ops (initWallet mpk)).addresses.length,
      (runOps prim net ops (initWallet mpk)).addresses[n] =
        encodeBase58Check prim (0 :: hash160 prim (4 :: prim.toBytes
          (prim.padd (prim.fromBytes mpk)
            (prim.pmulRaw (getSequence prim mpk n false % secpOrder) prim.G))))) ∧
    (∀ h : n < (runOps prim net ops (initWallet mpk)).change_addresses.length,
      (runOps prim net ops (initWallet mpk)).change_addresses[n] =
        encodeBase58Check prim (0 :: hash160 prim (4 :: prim.toBytes
          (prim.padd (prim.fromBytes mpk)
            (prim.pmulRaw (getSequence prim mpk n true % secpOrder) prim.G))))) := by
  have hg := goodAddrs_runOps prim net mpk ops (initWallet mpk)
    (goodAddrs_initWallet prim mpk)
  exact ⟨fun h => hg.2.1 n h, fun h => hg.2.2 n h⟩

/-- Witness for C1: after the CLI `create` sequence (one receiving
address), the stored address at index 0 is the claimed Base58Check
encoding, evaluated with the concrete primitives. -/
theorem addresses_follow_derivation_witness :
    (runOps natPrim emptyNet [WOp.newAddr false] (initWallet [1])).addresses.get
        ⟨0, by decide⟩ =
      encodeBase58Check natPrim (0 :: hash160 natPrim (4 :: natPrim.toBytes
        (natPrim.padd (natPrim.fromBytes [1])
          (natPrim.pmulRaw (getSequence natPrim [1] 0 false % secpOrder) natPrim.G)))) :=
  (addresses_follow_derivation natPrim emptyNet [1] [WOp.newAddr false] 0).1 (by decide)

/-- C2: the Merkle fold hashes `sibling || acc` when bit `i` of `pos` is
set and `acc || sibling` otherwise; a verified stamp
`(height, header timestamp, pos)` is recorded if and only if the final
accumulator equals the stored header's `merkle_root`; for a branch of
length 2 with `pos = 2` the accepted root is
`hash256(S1 || hash256(H0 || S0))`, and any change to `S1` that changes
that hash causes rejection with no stamp recorded. -/
theorem merkle_verification (hash256 : List Nat → List Nat)
    (getHeader : Nat → Option BlockHeader) (hdr : BlockHeader)
    (txid S0 S1 : List Nat) (merkle : List (List Nat)) (pos height : Nat)
    (hh : getHeader height = some hdr) :
    (verifyMerkle hash256 getHeader txid merkle pos height
        = some (height, hdr.timestamp, pos)
      ↔ hashMerkleRoot hash256 merkle txid pos = hdr.merkle_root) ∧
    (hashMerkleRoot hash256 merkle txid pos ≠ hdr.merkle_root →
      verifyMerkle hash256 getHeader txid merkle pos height = none) ∧
    hashMerkleRoot hash256 [S0, S1] txid 2 = hash256 (S1 ++ hash256 (txid ++ S0)) ∧
    (∀ S1b : List Nat,
      hash256 (S1b ++ hash256 (txid ++ S0)) ≠ hash256 (S1 ++ hash256 (txid ++ S0)) →
      hdr.merkle_root = hash256 (S1 ++ hash256 (txid ++ S0)) →
      verifyMerkle hash256 getHeader txid [S0, S1b] 2 height = none) := by
  have hfold : ∀ Sb : List Nat,
      hashMerkleRoot hash256 [S0, Sb] txid 2 = hash256 (Sb ++ hash256 (txid ++ S0)) := by
    intro Sb
    simp [hashMerkleRoot, hashMerkleRoot.go]
  refine ⟨?_, ?_, hfold S1, ?_⟩
  · unfold verifyMerkle
    rw [hh]
    by_cases hr : hdr.merkle_root = hashMerkleRoot hash256 merkle txid pos
    · simp [hr]
    · simp [hr, Ne.symm hr]
  · intro hne
    unfold verifyMerkle
    rw [hh]
    simp [Ne.symm hne]
  · intro S1b hflip hroot
    simp only [verifyMerkle, hh, hfold S1b]
    simp [hroot, Ne.symm hflip]

/-- Witness for C2: with the identity as `hash256`, a stored header with
root `[3,1,2]`, and the 2-branch `[[2],[3]]` at `pos = 2` for txid `[1]`,
the verifier records the stamp `(7, 11, 2)`, and altering the second
sibling makes it record nothing. -/
theorem merkle_verification_witness :
    verifyMerkle (fun l => l) (fun _ => some ⟨[3, 1, 2], 11⟩) [1] [[2], [3]] 2 7
        = some (7, 11, 2) ∧
      verifyMerkle (fun l => l) (fun _ => some ⟨[3, 1, 2], 11⟩) [1] [[2], [4]] 2 7
        = none := by
  have h := merkle_verification (fun l => l) (fun _ => some ⟨[3, 1, 2], 11⟩)
    ⟨[3, 1, 2], 11⟩ [1] [2] [3] [[2], [3]] 2 7 rfl
  exact ⟨h.1.mpr (by decide), h.2.2.2 [4] (by decide) (by decide)⟩

/-- C10: with an absent (`None`) or empty password, `pw_decode` and
`pw_encode` return the stored string unchanged and never raise
`InvalidPassword`; in particular the `seed` command on an encrypted
wallet, given an empty password, prints the raw ciphertext with no error
reported. -/
theorem pw_empty_password_identity (hashS : String → String)
    (encAES decAES : String → String → String) (s : String) :
    pwDecode hashS decAES s none = some s ∧
    pwDecode hashS decAES s (some "") = some s ∧
    pwEncode hashS encAES s none = s ∧
    pwEncode hashS encAES s (some "") = s := by
  refine ⟨rfl, ?_, rfl, ?_⟩ <;> simp [pwDecode, pwEncode]

/-- C9 counterexample: the plaintext `"AB"` is uppercase hex of length 2,
so it fails the validation the claim states (lowercase hex of the
expected length), yet `pw_decode` accepts it and returns it — the check
`d.decode('hex')` accepts either case and any even length. -/
theorem pw_decode_case_cex :
    pwDecode (fun x => x) (fun _ c => c) "AB" (some "x") = some "AB" ∧
    specLowercaseHex 32 "AB" = false ∧
    specLowercaseHex 2 "AB" = false := by
  refine ⟨?_, by decide, by decide⟩
  decide

/-- C9 amended: with a non-empty password, `pw_decode` raises
`WrongPassword` exactly when the decrypted plaintext is not an even-length
string of hexadecimal digits (of either case, with no length
requirement); when that validation passes, the plaintext is returned. -/
theorem pw_decode_validation (hashS : String → String)
    (decAES : String → String → String) (s p : String) (hp : p ≠ "") :
    (pwDecode hashS decAES s (some p) = none ↔
      hexDecodable (decAES (hashS p) s) = false) ∧
    (hexDecodable (decAES (hashS p) s) = true →
      pwDecode hashS decAES s (some p) = some (decAES (hashS p) s)) := by
  constructor
  · simp only [pwDecode, if_neg hp]
    cases hd : hexDecodable (decAES (hashS p) s) <;> simp [hd]
  · intro hd
    simp [pwDecode, if_neg hp, hd]

/-- Witness for C9 (amended): a plaintext with a non-hex character is
rejected as a wrong password. -/
theorem pw_decode_validation_witness :
    pwDecode (fun x => x) (fun _ c => c) "zz" (some "x") = none :=
  (pw_decode_validation (fun x => x) (fun _ c => c) "zz" "x" (by decide)).1.mpr
    (by decide)

/-- The signed sum of an address's confirmed history entries
(`height` nonzero). -/
def confirmedSum (w : Wallet) (a : List Nat) : Int :=
  ((historyGet w a).getD []).foldl
    (fun s it => if it.height ≠ 0 then s + it.value else s) 0

/-- The signed sum of an address's unconfirmed history entries
(`height = 0`). -/
def unconfirmedSum (w : Wallet) (a : List Nat) : Int :=
  ((historyGet w a).getD []).foldl
    (fun s it => if it.height ≠ 0 then s else s + it.value) 0

/-- The spec's balance: the signed sums of values across the history
entries of the given addresses, confirmed and unconfirmed separately. -/
def specSignedSums (w : Wallet) (addrs : List (List Nat)) : Int × Int :=
  addrs.foldl (fun acc a => (acc.1 + confirmedSum w a, acc.2 + unconfirmedSum w a)) (0, 0)

theorem foldl_balance_split (l : List HItem) :
    ∀ c u : Int,
      l.foldl
          (fun cu it =>
            if it.height ≠ 0 then (cu.1 + it.value, cu.2) else (cu.1, cu.2 + it.value))
          (c, u) =
        (l.foldl (fun s it => if it.height ≠ 0 then s + it.value else s) c,
          l.foldl (fun s it => if it.height ≠ 0 then s else s + it.value) u) := by
  induction l with
  | nil => intro c u; rfl
  | cons it rest ih =>
    intro c u
    simp only [List.foldl_cons]
    by_cases h : it.height ≠ 0
    · simp only [if_pos h]
      exact ih (c + it.value) u
    · simp only [if_neg h]
      exact ih c (u + it.value)

theorem getAddrBalance_split (w : Wallet) (a : List Nat) :
    getAddrBalance w a = (confirmedSum w a, unconfirmedSum w a) := by
  unfold getAddrBalance confirmedSum unconfirmedSum
  cases hh : historyGet w a with
  | none => simp [truthyHist]
  | some l =>
    cases l with
    | nil => simp [truthyHist]
    | cons it rest =>
      simp only [truthyHist, if_pos]
      exact foldl_balance_split (it :: rest) 0 0

theorem balance_foldl_eq (w : Wallet) (l : List (List Nat)) :
    ∀ acc : Int × Int,
      l.foldl
          (fun acc a =>
            let cu := getAddrBalance w a
            (acc.1 + cu.1, acc.2 + cu.2)) acc =
        l.foldl (fun acc a => (acc.1 + confirmedSum w a, acc.2 + unconfirmedSum w a)) acc := by
  intro acc
  simp only [getAddrBalance_split]

/-- C8 amended: the balance reported by `get_balance` is the sum, over the
*receiving* addresses only (`self.addresses` — change addresses are not
included), of the signed sums of that address's history-entry values,
height-0 entries accumulated into the unconfirmed component and the rest
into the confirmed component. -/
theorem balance_sums_receiving (w : Wallet) :
    getBalance w = specSignedSums w w.addresses :=
  balance_foldl_eq w w.addresses (0, 0)

/-- C8 counterexample: a wallet whose only funds sit on a change address.
`get_balance` iterates over `self.addresses` only, so it reports `(0, 0)`
while the signed sum over all owned (receiving and change) addresses is
`(5, 0)`. -/
def c8wallet : Wallet :=
  { gap_limit := 5, fee := 50000, mpk := [1], addresses := [],
    change_addresses := [[7]],
    history := [([7], [⟨5, 1, 100, false, "t", 0, "b", ""⟩])], status := [] }

theorem balance_ignores_change_cex :
    getBalance c8wallet ≠ specSignedSums c8wallet (allAddresses c8wallet) := by
  decide

/-- Sum of the values carried by a list of selected inputs. -/
def sumInputValues (l : List TxInput) : Int :=
  (l.map (fun i => i.value)).sum

/-- Sum of the values carried by a list of outputs. -/
def sumOutputValues (l : List (List Nat × Int)) : Int :=
  (l.map (fun o => o.2)).sum

/-- Sum of the values of a list of coin candidates. -/
def sumCoinValues (l : List (List Nat × HItem)) : Int :=
  (l.map (fun c => c.2.value)).sum

theorem selectLoop_cons (feeBase : Nat) (fixedFee : Option Nat) (amount : Int)
    (acc : List TxInput) (total : Int) (fee : Nat) (c : List Nat × HItem)
    (rest : List (List Nat × HItem)) :
    selectLoop feeBase fixedFee amount acc total fee (c :: rest) =
      if amount + (nextFee feeBase fixedFee (acc.length + 1) : Int) ≤ total + c.2.value
      then (acc ++ [mkInput c], total + c.2.value, nextFee feeBase fixedFee (acc.length + 1))
      else selectLoop feeBase fixedFee amount (acc ++ [mkInput c]) (total + c.2.value)
        (nextFee feeBase fixedFee (acc.length + 1)) rest := by
  simp [selectLoop]

theorem selectLoop_total (feeBase : Nat) (fixedFee : Option Nat) (amount : Int) :
    ∀ (coins : List (List Nat × HItem)) (acc : List TxInput) (total : Int) (fee : Nat),
      total = sumInputValues acc →
      (selectLoop feeBase fixedFee amount acc total fee coins).1 ≠ [] →
      (selectLoop feeBase fixedFee amount acc total fee coins).2.1 =
        sumInputValues (selectLoop feeBase fixedFee amount acc total fee coins).1 := by
  intro coins
  induction coins with
  | nil =>
    intro acc total fee _ hne
    exact absurd rfl hne
  | cons c rest ih =>
    intro acc total fee htot hne
    have hacc : total + c.2.value = sumInputValues (acc ++ [mkInput c]) := by
      simp only [sumInputValues, List.map_append, List.sum_append, htot]
      simp [mkInput, sumInputValues]
    rw [selectLoop_cons] at hne ⊢
    split
    · exact hacc
    · next h =>
      rw [if_neg h] at hne
      exact ih (acc ++ [mkInput c]) (total + c.2.value) _ hacc hne

theorem selectLoop_fee (feeBase : Nat) (fixedFee : Option Nat) (amount : Int) :
    ∀ (coins : List (List Nat × HItem)) (acc : List TxInput) (total : Int) (fee : Nat),
      (selectLoop feeBase fixedFee amount acc total fee coins).1 ≠ [] →
      (selectLoop feeBase fixedFee amount acc total fee coins).2.2 =
        nextFee feeBase fixedFee (selectLoop feeBase fixedFee amount acc total fee coins).1.length := by
  intro coins
  induction coins with
  | nil =>
    intro acc total fee hne
    exact absurd rfl hne
  | cons c rest ih =>
    intro acc total fee hne
    rw [selectLoop_cons] at hne ⊢
    split
    · simp
    · next h =>
      rw [if_neg h] at hne
      exact ih (acc ++ [mkInput c]) (total + c.2.value) _ hne

theorem selectLoop_mem (feeBase : Nat) (fixedFee : Option Nat) (amount : Int) :
    ∀ (coins : List (List Nat × HItem)) (acc : List TxInput) (total : Int) (fee : Nat)
      (inp : TxInput),
      inp ∈ (selectLoop feeBase fixedFee amount acc total fee coins).1 →
      inp ∈ acc ∨ ∃ c ∈ coins, inp = mkInput c := by
  intro coins
  induction coins with
  | nil =>
    intro acc total fee inp hmem
    exact absurd hmem (List.not_mem_nil inp)
  | cons c rest ih =>
    intro acc total fee inp hmem
    rw [selectLoop_cons] at hmem
    split at hmem
    · rcases List.mem_append.mp hmem with h | h
      · exact Or.inl h
      · exact Or.inr ⟨c, List.mem_cons_self c rest, (List.mem_singleton.mp h)⟩
    · rcases ih _ _ _ inp hmem with h | ⟨d, hd, he⟩
      · rcases List.mem_append.mp h with h2 | h2
        · exact Or.inl h2
        · exact Or.inr ⟨c, List.mem_cons_self c rest, (List.mem_singleton.mp h2)⟩
      · exact Or.inr ⟨d, List.mem_cons_of_mem c hd, he⟩

theorem mem_insertByNTime (c x : List Nat × HItem) :
    ∀ l : List (List Nat × HItem), x ∈ insertByNTime c l ↔ x = c ∨ x ∈ l := by
  intro l
  induction l with
  | nil => simp [insertByNTime]
  | cons d ds ih =>
    simp only [insertByNTime]
    split
    · simp only [List.mem_cons, ih]
      tauto
    · simp only [List.mem_cons]

theorem mem_sortCoins_foldl :
    ∀ (l acc : List (List Nat × HItem)) (x : List Nat × HItem),
      x ∈ l.foldl (fun acc c => insertByNTime c acc) acc ↔ x ∈ l ∨ x ∈ acc := by
  intro l
  induction l with
  | nil => simp
  | cons c cs ih =>
    intro acc x
    simp only [List.foldl_cons, ih, mem_insertByNTime, List.mem_cons]
    tauto

theorem mem_sortCoins (l : List (List Nat × HItem)) (x : List Nat × HItem) :
    x ∈ sortCoins l ↔ x ∈ l := by
  simpa [sortCoins] using mem_sortCoins_foldl l [] x

theorem mem_walletCoins (w : Wallet) (c : List Nat × HItem) (hc : c ∈ walletCoins w) :
    c.1 ∈ allAddresses w ∧
      ∃ hl, historyGet w c.1 = some hl ∧ c.2 ∈ hl ∧ c.2.raw_scriptPubKey ≠ "" := by
  obtain ⟨a, ha, hmem⟩ := List.mem_flatMap.mp hc
  cases hh : historyGet w a with
  | none => rw [hh] at hmem; exact absurd hmem (List.not_mem_nil c)
  | some hl =>
    rw [hh] at hmem
    obtain ⟨it, hit, heq⟩ := List.mem_map.mp hmem
    obtain ⟨hin, hscript⟩ := List.mem_filter.mp hit
    cases heq
    exact ⟨ha, hl, hh, hin, by simpa using hscript⟩

/-- C3: for every successful `mktx` result, the sum of the selected input
values minus the sum of the output values equals the fee that was used;
the recipient output carries the requested amount, and a change output of
`total − amount − fee` is appended exactly when that difference is
non-zero. -/
theorem mktx_io_balance (prim : Prim) (net : List Nat → List HItem) (w : Wallet)
    (toAddr : List Nat) (amount : Int) (fixedFee : Option Nat)
    (ins : List TxInput) (outs : List (List Nat × Int)) (fee : Nat)
    (h : mktxValues prim net w toAddr amount fixedFee = some (ins, outs, fee)) :
    sumInputValues ins - sumOutputValues outs = (fee : Int) ∧
    outs.head? = some (toAddr, amount) ∧
    (sumInputValues ins - (amount + (fee : Int)) ≠ 0 →
      ∃ ca, outs = [(toAddr, amount), (ca, sumInputValues ins - (amount + (fee : Int)))]) ∧
    (sumInputValues ins - (amount + (fee : Int)) = 0 → outs = [(toAddr, amount)]) := by
  simp only [mktxValues] at h
  split at h
  · exact absurd h (by simp)
  · next hne =>
    simp only [Option.some.injEq, Prod.mk.injEq] at h
    obtain ⟨hins, houts, hfee⟩ := h
    have htot : (chooseTxInputs w amount fixedFee).2.1 =
        sumInputValues (chooseTxInputs w amount fixedFee).1 :=
      selectLoop_total w.fee fixedFee amount (sortCoins (walletCoins w)) [] 0 _ rfl hne
    subst hins hfee
    rw [htot] at houts
    revert houts
    simp only [chooseTxOutputs]
    split
    · next hch =>
      split
      · next ca hfind =>
        intro houts
        subst houts
        refine ⟨?_, rfl, fun _ => ⟨ca, rfl⟩, fun h0 => absurd h0 hch⟩
        simp [sumOutputValues]
        ring
      · intro houts
        subst houts
        refine ⟨?_, rfl, fun _ => ⟨_, rfl⟩, fun h0 => absurd h0 hch⟩
        simp [sumOutputValues]
        ring
    · next hch =>
      intro houts
      subst houts
      simp only [ne_eq, not_not] at hch
      refine ⟨?_, rfl, fun h0 => absurd hch h0, fun _ => rfl⟩
      simp [sumOutputValues]
      omega

/-- A wallet holding a single unspent coin of 5 satoshis. -/
def c3wallet : Wallet :=
  { gap_limit := 5, fee := 50000, mpk := [1], addresses := [[7]],
    change_addresses := [],
    history := [([7], [⟨5, 1, 100, false, "t1", 0, "b", "aa"⟩])], status := [] }

/-- Witness for C3: sending 3 satoshis with a fixed fee of 2 from the
5-satoshi coin consumes it exactly (no change output), and the balance
equation holds. -/
theorem mktx_io_balance_witness :
    sumInputValues [⟨[7], 5, "t1", 0, "aa"⟩] - sumOutputValues [([9], 3)] =
      ((2 : Nat) : Int) :=
  (mktx_io_balance natPrim emptyNet c3wallet [9] 3 (some 2)
    [⟨[7], 5, "t1", 0, "aa"⟩] [([9], 3)] 2 (by decide)).1

theorem selectLoop_none_nil_iff (feeBase : Nat) (amount : Int) :
    ∀ (coins : List (List Nat × HItem)) (acc : List TxInput) (total : Int) (fee : Nat),
      ((selectLoop feeBase none amount acc total fee coins).1 = [] ↔
        ∀ k, 1 ≤ k → k ≤ coins.length →
          total + sumCoinValues (coins.take k) <
            amount + ((feeBase * (acc.length + k) : Nat) : Int)) := by
  intro coins
  induction coins with
  | nil =>
    intro acc total fee
    constructor
    · intro _ k hk1 hk2
      simp only [List.length_nil] at hk2
      omega
    · intro _
      rfl
  | cons c rest ih =>
    intro acc total fee
    rw [selectLoop_cons]
    have hfeeval : nextFee feeBase none (acc.length + 1) = feeBase * (acc.length + 1) := rfl
    split
    · next h =>
      apply iff_of_false
      · simp
      · intro hall
        have h1 := hall 1 (le_refl 1) (by simp)
        rw [hfeeval] at h
        simp only [List.take_succ_cons, List.take_zero, sumCoinValues, List.map_cons,
          List.map_nil, List.sum_cons, List.sum_nil] at h1
        omega
    · next h =>
      rw [ih]
      rw [hfeeval] at h
      constructor
      · intro hall k hk1 hk2
        cases k with
        | zero => omega
        | succ j =>
          cases j with
          | zero =>
            simp only [List.take_succ_cons, List.take_zero, sumCoinValues, List.map_cons,
              List.map_nil, List.sum_cons, List.sum_nil, Nat.zero_add]
            omega
          | succ j2 =>
            have hj := hall (j2 + 1) (by omega)
              (by simp only [List.length_cons] at hk2; omega)
            simp only [List.take_succ_cons, sumCoinValues, List.map_cons, List.sum_cons,
              List.length_append, List.length_singleton] at hj ⊢
            have hM : acc.length + 1 + (j2 + 1) = acc.length + (j2 + 1 + 1) := by omega
            rw [hM] at hj
            omega
      · intro hall j hj1 hj2
        have hjj := hall (j + 1) (by omega) (by simp only [List.length_cons]; omega)
        simp only [List.take_succ_cons, sumCoinValues, List.map_cons, List.sum_cons] at hjj
        simp only [sumCoinValues, List.length_append, List.length_singleton]
        have hM : acc.length + 1 + j = acc.length + (j + 1) := by omega
        rw [hM]
        omega

/-- C5: when no fee is supplied by the user, the fee charged is
`self.fee * len(inputs)` — equivalently `fee_per_kb · ceil(size/1000)`
with each selected input estimated at one kilobyte — recomputed each time
an input is added, and the selection fails with "not enough funds" exactly
when no prefix of the (time-sorted) coin list reaches `amount + fee`. -/
theorem default_fee_and_insufficiency (w : Wallet) (amount : Int) :
    ((chooseTxInputs w amount none).1 ≠ [] →
      (chooseTxInputs w amount none).2.2 =
        w.fee * (chooseTxInputs w amount none).1.length ∧
      (chooseTxInputs w amount none).2.2 =
        w.fee * ((1000 * (chooseTxInputs w amount none).1.length + 999) / 1000)) ∧
    ((chooseTxInputs w amount none).1 = [] ↔
      ∀ k, 1 ≤ k → k ≤ (sortCoins (walletCoins w)).length →
        sumCoinValues ((sortCoins (walletCoins w)).take k) <
          amount + ((w.fee * k : Nat) : Int)) := by
  constructor
  · intro hne
    have hf := selectLoop_fee w.fee none amount (sortCoins (walletCoins w)) [] 0
      (Option.getD none w.fee) hne
    refine ⟨hf, ?_⟩
    have hceil : ∀ n : Nat, (1000 * n + 999) / 1000 = n := by intro n; omega
    rw [hceil]
    exact hf
  · have h := selectLoop_none_nil_iff w.fee amount (sortCoins (walletCoins w)) [] 0
      (Option.getD none w.fee)
    simpa using h

/-- A wallet holding a single unspent coin of 1 BTC. -/
def c5wallet : Wallet :=
  { gap_limit := 5, fee := 50000, mpk := [1], addresses := [[7]],
    change_addresses := [],
    history := [([7], [⟨100000000, 1, 100, false, "t1", 0, "b", "aa"⟩])], status := [] }

/-- Witness for C5: one selected input is charged one unit of `self.fee`. -/
theorem default_fee_and_insufficiency_witness :
    (chooseTxInputs c5wallet 1 none).2.2 =
      c5wallet.fee * (chooseTxInputs c5wallet 1 none).1.length :=
  ((default_fee_and_insufficiency c5wallet 1).1 (by decide)).1

/-- `True` when the selected input tuple was built from the given history
entry of the given address. -/
def inputMatches (inp : TxInput) (c : List Nat × HItem) : Bool :=
  c.1 == inp.addr && c.2.value == inp.value && c.2.tx_hash == inp.tx_hash &&
    c.2.pos == inp.pos && c.2.raw_scriptPubKey == inp.script

/-- The spec's spentness test: some history entry on some owned address
references the same `(tx_hash, pos)` as an input. -/
def spentLater (w : Wallet) (txh : String) (pos : Nat) : Bool :=
  (allAddresses w).any fun a =>
    ((historyGet w a).getD []).any fun it =>
      it.is_in && it.tx_hash == txh && it.pos == pos

/-- The spec's candidate-UTXO predicate for a selected input: it comes
from a history entry with `is_input = false` and a non-empty
`script_pubkey`, and no history entry on any owned address spends the
same `(tx_hash, pos)`. -/
def isUnspentCandidate (w : Wallet) (inp : TxInput) : Bool :=
  ((allAddresses w).any fun a =>
    ((historyGet w a).getD []).any fun it =>
      inputMatches inp (a, it) && !it.is_in && it.raw_scriptPubKey != "") &&
  !spentLater w inp.tx_hash inp.pos

/-- C4 counterexample: the client never checks `is_input` or spentness —
`choose_tx_inputs` selects any history entry whose `raw_scriptPubKey` is
non-empty.  A history entry with `is_input = true` but a non-empty script
is selected even though it is not a candidate UTXO. -/
def c4wallet : Wallet :=
  { gap_limit := 5, fee := 50000, mpk := [1], addresses := [[7]],
    change_addresses := [],
    history := [([7], [⟨5, 1, 100, true, "t", 0, "b", "aa"⟩])], status := [] }

theorem input_selection_trusts_script_cex :
    (chooseTxInputs c4wallet 1 (some 0)).1 = [⟨[7], 5, "t", 0, "aa"⟩] ∧
    isUnspentCandidate c4wallet ⟨[7], 5, "t", 0, "aa"⟩ = false := by
  decide

/-- The guarantee the server's `get_txpoints` provides
(`src/server/server.py`, lines 286-297): `raw_scriptPubKey` is attached
only to entries that are outputs (`is_in` false) and not yet redeemed. -/
def serverConsistent (w : Wallet) : Prop :=
  ∀ a ∈ allAddresses w, ∀ it ∈ (historyGet w a).getD [],
    it.raw_scriptPubKey ≠ "" →
      it.is_in = false ∧ spentLater w it.tx_hash it.pos = false

instance decServerConsistent (w : Wallet) : Decidable (serverConsistent w) := by
  unfold serverConsistent
  infer_instance

/-- C4 amended: for histories in which a non-empty `raw_scriptPubKey`
appears only on unredeemed non-input entries — the invariant the server's
`get_txpoints` maintains — every input chosen by `choose_tx_inputs` is an
unspent candidate UTXO.  (The client itself checks only that
`raw_scriptPubKey` is non-empty.) -/
theorem inputs_are_unspent_candidates (w : Wallet) (amount : Int) (ff : Option Nat)
    (hsc : serverConsistent w) (inp : TxInput)
    (hmem : inp ∈ (chooseTxInputs w amount ff).1) :
    isUnspentCandidate w inp = true := by
  have h1 := selectLoop_mem w.fee ff amount (sortCoins (walletCoins w)) [] 0
    (Option.getD ff w.fee) inp hmem
  rcases h1 with h | ⟨c, hc, he⟩
  · exact absurd h (List.not_mem_nil inp)
  · have hc2 := (mem_sortCoins _ _).mp hc
    obtain ⟨ha, hl, hh, hit, hscript⟩ := mem_walletCoins w c hc2
    obtain ⟨hin, hspent⟩ := hsc c.1 ha c.2 (by rw [hh]; exact hit) hscript
    subst he
    unfold isUnspentCandidate
    rw [Bool.and_eq_true]
    constructor
    · rw [List.any_eq_true]
      refine ⟨c.1, ha, ?_⟩
      rw [List.any_eq_true]
      refine ⟨c.2, by rw [hh]; exact hit, ?_⟩
      simp [inputMatches, mkInput, hin, hscript]
    · simp only [mkInput]
      rw [hspent]
      rfl

/-- Witness for C4 (amended): in a single-coin wallet satisfying the
server invariant, the selected input is an unspent candidate. -/
theorem inputs_are_unspent_candidates_witness :
    isUnspentCandidate c3wallet ⟨[7], 5, "t1", 0, "aa"⟩ = true :=
  inputs_are_unspent_candidates c3wallet 3 (some 2) (by decide)
    ⟨[7], 5, "t1", 0, "aa"⟩ (by decide)

/-- The wallet produced by the CLI `create` command: a fresh store with
exactly one receiving address. -/
def c6w0 : Wallet := (createNewAddress2 natPrim emptyNet (initWallet [1]) false).2

/-- The wallet after `n` successive `get_new_address` calls on the fresh
wallet, with every history empty (no address ever used). -/
def c6state (n : Nat) : Wallet :=
  (List.range n).foldl (fun w _ => (getNewAddress natPrim emptyNet w).2) c6w0

/-- The result of the `(n+1)`-st successive `get_new_address` call. -/
def c6addr (n : Nat) : Option (List Nat) :=
  (getNewAddress natPrim emptyNet (c6state n)).1

/-- C6 counterexample: on a fresh wallet with `gap_limit = 5` created with
exactly one receiving address and no address ever used, the first four
`get_new_address` calls succeed but the *fifth* already fails with the
gap-limit message — not the sixth as claimed (the initial address counts
against the gap window). -/
theorem gap_limit_fifth_call_cex :
    (c6addr 0).isSome = true ∧ (c6addr 1).isSome = true ∧
    (c6addr 2).isSome = true ∧ (c6addr 3).isSome = true ∧
    c6addr 4 = none := by
  decide

/-- C6 amended: `get_new_address` returns a fresh receiving address when
fewer than `gap_limit` of the last `gap_limit` receiving addresses are
unused, and fails exactly when there are `gap_limit` trailing receiving
addresses all with empty history; concretely, the fresh one-address
wallet with `gap_limit = 5` yields four distinct addresses over four
successive calls, and a fifth call, with none of them used, reports the
gap limit reached. -/
theorem gap_limit_behavior (prim : Prim) (net : List Nat → List HItem) (w : Wallet) :
    ((getNewAddress prim net w).1 = none ↔
      (lastReceiving w).length = w.gap_limit ∧
        ∀ a ∈ lastReceiving w, truthyHist (historyGet w a) = false) ∧
    (c6addr 0 ≠ c6addr 1 ∧ c6addr 0 ≠ c6addr 2 ∧ c6addr 0 ≠ c6addr 3 ∧
      c6addr 1 ≠ c6addr 2 ∧ c6addr 1 ≠ c6addr 3 ∧ c6addr 2 ≠ c6addr 3 ∧
      (c6addr 0).isSome = true ∧ (c6addr 1).isSome = true ∧
      (c6addr 2).isSome = true ∧ (c6addr 3).isSome = true ∧ c6addr 4 = none) := by
  constructor
  · have hlen : (lastReceiving w).length ≤ w.gap_limit := by
      simp only [lastReceiving, List.length_drop]
      omega
    have hcle : (lastReceiving w).countP (fun a => !truthyHist (historyGet w a)) ≤
        (lastReceiving w).length := List.countP_le_length _
    by_cases hcond :
        (lastReceiving w).countP (fun a => !truthyHist (historyGet w a)) < w.gap_limit
    · simp only [getNewAddress, if_pos hcond]
      constructor
      · intro habs
        exact absurd habs (by simp)
      · rintro ⟨hle, hall⟩
        have hcp : (lastReceiving w).countP (fun a => !truthyHist (historyGet w a)) =
            (lastReceiving w).length := by
          rw [List.countP_eq_length]
          intro a hamem
          simp [hall a hamem]
        omega
    · simp only [getNewAddress, if_neg hcond]
      constructor
      · intro _
        have hcp : (lastReceiving w).countP (fun a => !truthyHist (historyGet w a)) =
            (lastReceiving w).length := by omega
        refine ⟨by omega, ?_⟩
        intro a hamem
        have := (List.countP_eq_length.mp hcp) a hamem
        simpa using this
      · intro _
        trivial
  · decide

theorem lookup_cons_ne {α β : Type} [BEq α] [LawfulBEq α] (a k : α) (b : β)
    (es : List (α × β)) (h : a ≠ k) :
    List.lookup a ((k, b) :: es) = List.lookup a es := by
  simp [List.lookup, beq_eq_false_iff_ne.mpr h]

theorem historyGet_createNewAddress2_ne (prim : Prim) (net : List Nat → List HItem)
    (w : Wallet) (fc : Bool) (a : List Nat)
    (hne : a ≠ (createNewAddress2 prim net w fc).1) :
    historyGet (createNewAddress2 prim net w fc).2 a = historyGet w a := by
  cases fc <;>
    · simp only [createNewAddress2, historySet, historyGet, if_true, if_false,
        Bool.false_eq_true, ite_true, ite_false] at hne ⊢
      exact lookup_cons_ne a _ _ _ hne

theorem createNewAddress2_change_false (prim : Prim) (net : List Nat → List HItem)
    (w : Wallet) :
    (createNewAddress2 prim net w false).2.change_addresses = w.change_addresses := rfl

theorem createNewAddress2_mem_addresses (prim : Prim) (net : List Nat → List HItem)
    (w : Wallet) (fc : Bool) (x : List Nat) (hx : x ∈ w.addresses) :
    x ∈ (createNewAddress2 prim net w fc).2.addresses := by
  cases fc
  · exact List.mem_append_left _ hx
  · exact hx

theorem createNewAddress2_fst_mem (prim : Prim) (net : List Nat → List HItem)
    (w : Wallet) :
    (createNewAddress2 prim net w false).1 ∈ (createNewAddress2 prim net w false).2.addresses :=
  List.mem_append_right _ (List.mem_singleton.mpr rfl)

theorem syncRecv_addresses_mono (prim : Prim) (net : List Nat → List HItem) :
    ∀ (fuel : Nat) (w : Wallet) (x : List Nat), x ∈ w.addresses →
      x ∈ (syncRecv prim net fuel w).2.addresses := by
  intro fuel
  induction fuel with
  | zero => intro w x hx; exact hx
  | succ f ih =>
    intro w x hx
    unfold syncRecv
    split
    · exact ih _ x (createNewAddress2_mem_addresses prim net w false x hx)
    · split
      · exact hx
      · exact ih _ x (createNewAddress2_mem_addresses prim net w false x hx)

theorem syncRecv_preserves (prim : Prim) (net : List Nat → List HItem) :
    ∀ (fuel : Nat) (w : Wallet),
      (syncRecv prim net fuel w).2.change_addresses = w.change_addresses ∧
      ∀ a : List Nat, a ∉ (syncRecv prim net fuel w).2.addresses →
        historyGet (syncRecv prim net fuel w).2 a = historyGet w a := by
  intro fuel
  induction fuel with
  | zero => intro w; exact ⟨rfl, fun a _ => rfl⟩
  | succ f ih =>
    intro w
    unfold syncRecv
    split
    · refine ⟨(ih _).1.trans (createNewAddress2_change_false prim net w), ?_⟩
      intro a ha
      have hstep : a ≠ (createNewAddress2 prim net w false).1 := by
        intro heq
        exact ha (heq ▸ syncRecv_addresses_mono prim net f _ _
          (createNewAddress2_fst_mem prim net w))
      exact ((ih _).2 a ha).trans (historyGet_createNewAddress2_ne prim net w false a hstep)
    · split
      · exact ⟨rfl, fun a _ => rfl⟩
      · refine ⟨(ih _).1.trans (createNewAddress2_change_false prim net w), ?_⟩
        intro a ha
        have hstep : a ≠ (createNewAddress2 prim net w false).1 := by
          intro heq
          exact ha (heq ▸ syncRecv_addresses_mono prim net f _ _
            (createNewAddress2_fst_mem prim net w))
        exact ((ih _).2 a ha).trans (historyGet_createNewAddress2_ne prim net w false a hstep)

theorem syncRecv_true_lastEmpty (prim : Prim) (net : List Nat → List HItem) :
    ∀ (fuel : Nat) (w w2 : Wallet), syncRecv prim net fuel w = (true, w2) →
      lastReceivingEmpty w2 = true := by
  intro fuel
  induction fuel with
  | zero =>
    intro w w2 h
    simp [syncRecv] at h
  | succ f ih =>
    intro w w2 h
    unfold syncRecv at h
    split at h
    · exact ih _ w2 h
    · split at h
      · next hemp =>
        obtain ⟨rfl⟩ : w = w2 := by
          have := congrArg Prod.snd h
          simpa using this
        exact hemp
      · exact ih _ w2 h

/-- The last change address (`self.change_addresses[-1]`), defaulting to
the empty byte string on an empty list. -/
def lastChange (w : Wallet) : List Nat :=
  (w.change_addresses.getLast?).getD []

theorem syncChange_true (prim : Prim) (net : List Nat → List HItem) :
    ∀ (fuel : Nat) (w w1 : Wallet), syncChange prim net fuel w = (true, w1) →
      w1.change_addresses ≠ [] ∧ truthyHist (historyGet w1 (lastChange w1)) = false := by
  intro fuel
  induction fuel with
  | zero =>
    intro w w1 h
    simp [syncChange] at h
  | succ f ih =>
    intro w w1 h
    unfold syncChange at h
    split at h
    · exact ih _ w1 h
    · next a hlast =>
      split at h
      · exact ih _ w1 h
      · next hunused =>
        obtain ⟨rfl⟩ : w = w1 := by
          have := congrArg Prod.snd h
          simpa using this
        constructor
        · intro hnil
          rw [hnil] at hlast
          simp at hlast
        · rw [lastChange, hlast]
          simpa using hunused

/-- C7 amended: when `synchronize` returns quiescent, the last
`gap_limit` receiving addresses all have history exactly `[]`, and the
change list is *non-empty with its last address unused* (empty history) —
the loop stops creating change addresses precisely when the last one has
never been used.  (The hypothesis that the last change address does not
also occur in the receiving list rules out colliding derived
addresses overwriting each other's history entry.) -/
theorem synchronize_postcondition (prim : Prim) (net : List Nat → List HItem)
    (fuel : Nat) (w w2 : Wallet)
    (hret : synchronizeLoops prim net fuel w = (true, w2))
    (hnc : lastChange w2 ∉ w2.addresses) :
    lastReceivingEmpty w2 = true ∧ w2.change_addresses ≠ [] ∧
      truthyHist (historyGet w2 (lastChange w2)) = false := by
  simp only [synchronizeLoops] at hret
  split at hret
  · next hb1 =>
    have hchain : syncChange prim net fuel w =
        (true, (syncChange prim net fuel w).2) := by
      rw [← hb1]
    obtain ⟨hne1, hun1⟩ := syncChange_true prim net fuel w _ hchain
    obtain ⟨hpc, hph⟩ := syncRecv_preserves prim net fuel (syncChange prim net fuel w).2
    have hw2 : (syncRecv prim net fuel (syncChange prim net fuel w).2).2 = w2 := by
      rw [hret]
    subst hw2
    have hlast : lastChange (syncRecv prim net fuel (syncChange prim net fuel w).2).2 =
        lastChange (syncChange prim net fuel w).2 := by
      simp only [lastChange, hpc]
    refine ⟨syncRecv_true_lastEmpty prim net fuel _ _ hret, ?_, ?_⟩
    · rw [hpc]
      exact hne1
    · rw [hph _ hnc, hlast]
      exact hun1
  · next =>
    exact absurd (congrArg Prod.fst hret) (by simp)

/-- C7 counterexample: a fresh wallet synchronized against a server
reporting empty histories reaches quiescence with a *non-empty* change
list whose last address has *never* been used — the loop stops creating
change addresses exactly when the last one is unused, so the claimed
postcondition "the last change address has been used or the change list
is empty" fails. -/
theorem synchronize_change_unused_cex :
    (synchronizeLoops natPrim emptyNet 20 (initWallet [1])).1 = true ∧
    ¬((synchronizeLoops natPrim emptyNet 20 (initWallet [1])).2.change_addresses = [] ∨
      truthyHist (historyGet (synchronizeLoops natPrim emptyNet 20 (initWallet [1])).2
        (lastChange (synchronizeLoops natPrim emptyNet 20 (initWallet [1])).2)) = true) := by
  decide

/-- Witness for C7 (amended): the concrete quiescent state of a fresh
wallet has five trailing empty receiving addresses and one unused change
address. -/
theorem synchronize_postcondition_witness :
    lastReceivingEmpty (synchronizeLoops natPrim emptyNet 20 (initWallet [1])).2 = true ∧
    (synchronizeLoops natPrim emptyNet 20 (initWallet [1])).2.change_addresses ≠ [] ∧
    truthyHist (historyGet (synchronizeLoops natPrim emptyNet 20 (initWallet [1])).2
      (lastChange (synchronizeLoops natPrim emptyNet 20 (initWallet [1])).2)) = false :=
  synchronize_postcondition natPrim emptyNet 20 (initWallet [1])
    (synchronizeLoops natPrim emptyNet 20 (initWallet [1])).2
    (by decide) (by decide)

end Electrum
